import Mathlib

/-!
Verification of the synchronization core of the Amazoom repository
(cpen333 process primitives): the notify/wait core (condition_base),
the bounded FIFO, and the reader/writer mutex variants.

Each C++ class is shallowly embedded as a Lean state type together with
either pure state-transformer functions (for the bodies of single
critical sections) or a small-step transition relation (for the
concurrent protocol built from those critical sections).  Machine
integers are modelled as follows: the C++ signed `long` counters of
condition_base are modelled as unbounded `Int` (the source folds `gone`
back at `LONG_MAX/2`, which is kept literally as `goneThreshold` for an
LP64 `long`); `size_t` fields are modelled as `Nat`, with decrements
that can underflow written with an explicit wrap modulo 2^64 and
increments kept exact (an increment can only wrap after 2^64 concurrent
holders, which no trace considered here approaches).
-/

namespace CondBase

/-- The fold threshold `std::numeric_limits<long>::max() / 2` used in
condition_base::wait for an LP64 (64-bit) `long`. -/
def goneThreshold : Int := 4611686018427387903

/-- Outcome of the unblock_lock-protected region of
condition_base::notify (condition_base.h lines 208-256):
`noop` is the two early-return branches; `merge` is the branch taken
while a previous generation is still draining (`unblock != 0`);
`gated` is the branch that first closes the gate with
`block_lock_.wait()`.  Each carries the new counter values and the
number of `block_queue_.notify()` posts performed after the region. -/
inductive NotifyOut where
  | noop : NotifyOut
  | merge (blocked unblock gone signals : Int) : NotifyOut
  | gated (blocked unblock gone signals : Int) : NotifyOut
deriving DecidableEq

/-- The counter logic of condition_base::notify, literally transcribed
from the source: argument order is blocked, unblock, gone. -/
def notifyEval (broadcast : Bool) (b u g : Int) : NotifyOut :=
  if u ≠ 0 then
    if b = 0 then NotifyOut.noop
    else if broadcast then NotifyOut.merge 0 (u + b) g b
    else NotifyOut.merge (b - 1) (u + 1) g 1
  else if g < b then
    if broadcast then NotifyOut.gated 0 (b - g) 0 (b - g)
    else NotifyOut.gated (b - g - 1) 1 0 1
  else NotifyOut.noop

/-- Total view of notifyEval: the counters after the call together with
the number of permits posted on block_queue. -/
def notifyRun (broadcast : Bool) (b u g : Int) : (Int × Int × Int) × Int :=
  match notifyEval broadcast b u g with
  | NotifyOut.noop => ((b, u, g), 0)
  | NotifyOut.merge b1 u1 g1 n => ((b1, u1, g1), n)
  | NotifyOut.gated b1 u1 g1 n => ((b1, u1, g1), n)

/-- Global state of one condition_base object plus the in-flight waiter
and notifier activity around it.  blocked/unblock/gone are the shared
counters; blockLock and blockQueue are the two semaphore counts;
pendingPosts counts block_queue posts a notifier has decided on but not
yet executed (the post loop runs outside unblock_lock); parked counts
waiters sleeping on block_queue; acctTimed/acctWoken count waiters that
returned from the sleep (by timeout resp. by consuming a permit) and
are about to run the unblock_lock accounting block; tails holds, for
each waiter in the final `signals_left == 1` section, the number of
leftover gone-permits it still has to drain before reopening the gate. -/
structure CBState where
  blocked : Int
  unblock : Int
  gone : Int
  blockLock : Nat
  blockQueue : Nat
  pendingPosts : Nat
  parked : Nat
  acctTimed : Nat
  acctWoken : Nat
  tails : Multiset Nat
deriving DecidableEq

/-- Initial state: counters zero, gate open (block_lock = 1), queue
empty, no activity. -/
def CBState.init : CBState := ⟨0, 0, 0, 1, 0, 0, 0, 0, 0, 0⟩

/-- State after a notify call: applies notifyEval to the counters; the
gated branch consumes the block_lock permit; the posts are queued on
pendingPosts. -/
def notifyNext (broadcast : Bool) (s : CBState) : CBState :=
  match notifyEval broadcast s.blocked s.unblock s.gone with
  | NotifyOut.noop => s
  | NotifyOut.merge b1 u1 g1 n =>
      { s with blocked := b1, unblock := u1, gone := g1,
               pendingPosts := s.pendingPosts + n.toNat }
  | NotifyOut.gated b1 u1 g1 n =>
      { s with blocked := b1, unblock := u1, gone := g1,
               blockLock := s.blockLock - 1,
               pendingPosts := s.pendingPosts + n.toNat }

/-- State after the unblock_lock accounting block of
condition_base::wait (condition_base.h lines 294-328) run by one waiter
that woke with `timed_out = timedOut`, including its exit route: either
it is done, or it posts the gate from inside the region
(blockLock + 1), or it enters the trailing `signals_left == 1` section
with a drain count (pushed on tails). -/
def acctNext (timedOut : Bool) (s : CBState) : CBState :=
  let s0 := if timedOut then { s with acctTimed := s.acctTimed - 1 }
            else { s with acctWoken := s.acctWoken - 1 }
  if s.unblock ≠ 0 then
    let bg : Int × Int :=
      if timedOut then
        (if s.blocked ≠ 0 then (s.blocked - 1, s.gone) else (s.blocked, s.gone + 1))
      else (s.blocked, s.gone)
    if s.unblock - 1 = 0 then
      if bg.1 ≠ 0 then
        { s0 with blocked := bg.1, unblock := 0, gone := bg.2,
                  blockLock := s.blockLock + 1 }
      else
        { s0 with blocked := bg.1, unblock := 0, gone := 0,
                  tails := bg.2.toNat ::ₘ s.tails }
    else
      { s0 with blocked := bg.1, unblock := s.unblock - 1, gone := bg.2 }
  else
    if s.gone + 1 = goneThreshold then
      { s0 with blocked := s.blocked - (s.gone + 1), gone := 0 }
    else
      { s0 with gone := s.gone + 1 }

/-- Small-step transition relation of the condition_base protocol.
enter is the block_lock-guarded `++blocked` at wait entry; wake and
timeout are the two ways a parked waiter leaves block_queue; post
executes one queued block_queue notify; acct runs the accounting block
(the fold branch additionally needs the gate, taken by a
semaphore_guard); notify runs a whole notify call (its gated branch
needs the gate); tailDrain and tailFinish are the trailing
`signals_left == 1` section: drain the leftover permits one by one,
then reopen the gate. -/
inductive CBStep : CBState → CBState → Prop where
  | enter (s : CBState) (h : 1 ≤ s.blockLock) :
      CBStep s { s with blocked := s.blocked + 1, parked := s.parked + 1 }
  | wake (s : CBState) (hp : 1 ≤ s.parked) (hq : 1 ≤ s.blockQueue) :
      CBStep s { s with parked := s.parked - 1, blockQueue := s.blockQueue - 1,
                        acctWoken := s.acctWoken + 1 }
  | timeout (s : CBState) (hp : 1 ≤ s.parked) :
      CBStep s { s with parked := s.parked - 1, acctTimed := s.acctTimed + 1 }
  | post (s : CBState) (hp : 1 ≤ s.pendingPosts) :
      CBStep s { s with pendingPosts := s.pendingPosts - 1,
                        blockQueue := s.blockQueue + 1 }
  | acct (timedOut : Bool) (s : CBState)
      (hsrc : 1 ≤ (if timedOut then s.acctTimed else s.acctWoken))
      (hgate : s.unblock = 0 → s.gone + 1 = goneThreshold → 1 ≤ s.blockLock) :
      CBStep s (acctNext timedOut s)
  | notify (broadcast : Bool) (s : CBState)
      (hgate : s.unblock = 0 → s.gone < s.blocked → 1 ≤ s.blockLock) :
      CBStep s (notifyNext broadcast s)
  | tailDrain (s : CBState) (g : Nat) (hm : g + 1 ∈ s.tails) (hq : 1 ≤ s.blockQueue) :
      CBStep s { s with tails := g ::ₘ s.tails.erase (g + 1),
                        blockQueue := s.blockQueue - 1 }
  | tailFinish (s : CBState) (hm : 0 ∈ s.tails) :
      CBStep s { s with tails := s.tails.erase 0, blockLock := s.blockLock + 1 }

/-- States reachable from the freshly initialized condition_base. -/
inductive CBReachable : CBState → Prop where
  | init : CBReachable CBState.init
  | step {s s' : CBState} : CBReachable s → CBStep s s' → CBReachable s'

/-- Counter facts maintained by every reachable state: gone and unblock
never go negative, and blocked is non-negative whenever a notification
generation is draining. -/
def CBInv (s : CBState) : Prop :=
  0 ≤ s.gone ∧ 0 ≤ s.unblock ∧ (s.unblock ≠ 0 → 0 ≤ s.blocked)

end CondBase

namespace FifoM

/-- State of one cpen333::process::fifo object (fifo.h): the index
block (pidx, cidx, size) in shared memory, the circular data buffer
(modelled as a total function from slot index to value), and the two
counting semaphore values psem_ (producer slots, initialized to size)
and csem_ (items available, initialized to 0). -/
structure FifoSt (α : Type) where
  size : Nat
  pidx : Nat
  cidx : Nat
  data : Nat → α
  psem : Nat
  csem : Nat

/-- A freshly constructed fifo of capacity n with buffer filled by the
default value d. -/
def fifo_new (n : Nat) (d : α) : FifoSt α := ⟨n, 0, 0, fun _ => d, n, 0⟩

/-- fifo::push_item (fifo.h lines 381-395): store at pidx and advance
it, wrapping to 0 at size. -/
def push_item (v : α) (s : FifoSt α) : FifoSt α :=
  { s with pidx := if s.pidx + 1 = s.size then 0 else s.pidx + 1,
           data := fun i => if i = s.pidx then v else s.data i }

/-- fifo::pop_item (fifo.h lines 411-428): read at cidx and advance it,
wrapping to 0 at size. -/
def pop_item (s : FifoSt α) : α × FifoSt α :=
  (s.data s.cidx, { s with cidx := if s.cidx + 1 = s.size then 0 else s.cidx + 1 })

/-- fifo::peek_item (fifo.h lines 397-409): read at cidx without
advancing it. -/
def peek_item (s : FifoSt α) : α := s.data s.cidx

/-- fifo::try_push: try-wait on psem_, push_item, notify csem_. -/
def try_push (v : α) (s : FifoSt α) : Option (FifoSt α) :=
  if s.psem = 0 then none
  else
    let s1 := push_item v { s with psem := s.psem - 1 }
    some { s1 with csem := s1.csem + 1 }

/-- fifo::try_pop: try-wait on csem_, pop_item, notify psem_. -/
def try_pop (s : FifoSt α) : Option (α × FifoSt α) :=
  if s.csem = 0 then none
  else
    let r := pop_item { s with csem := s.csem - 1 }
    some (r.1, { r.2 with psem := r.2.psem + 1 })

/-- fifo::try_peek (fifo.h lines 275-282): try-wait on csem_, then
peek_item; the source posts nothing back on csem_. -/
def try_peek (s : FifoSt α) : Option (α × FifoSt α) :=
  if s.csem = 0 then none
  else some (peek_item s, { s with csem := s.csem - 1 })

/-- fifo::size (fifo.h lines 333-341). -/
def fifo_size (s : FifoSt α) : Nat :=
  if s.pidx < s.cidx then s.size - s.cidx + s.pidx else s.pidx - s.cidx

/-- fifo::empty (fifo.h lines 351-355). -/
def fifo_empty (s : FifoSt α) : Bool := s.pidx = s.cidx

/-- A sequence of try_push calls, failing if any one of them would
block. -/
def pushSeq : FifoSt α → List α → Option (FifoSt α)
  | s, [] => some s
  | s, v :: vs =>
    match try_push v s with
    | none => none
    | some s' => pushSeq s' vs

/-- k try_pop calls, collecting the popped values in order. -/
def popSeq : FifoSt α → Nat → Option (List α × FifoSt α)
  | s, 0 => some ([], s)
  | s, k + 1 =>
    match try_pop s with
    | none => none
    | some (v, s') =>
      match popSeq s' k with
      | none => none
      | some (vs, s'') => some (v :: vs, s'')

/-- Well-formedness of a fifo state: positive capacity, consumer index
in range, the two semaphores partition the capacity, and the producer
index is the consumer index advanced by the item count, modulo the
capacity. -/
def WF (s : FifoSt α) : Prop :=
  0 < s.size ∧ s.cidx < s.size ∧ s.psem + s.csem = s.size ∧
    s.pidx = (s.cidx + s.csem) % s.size

/-- Abstraction function: the queue contents, from the consumer index,
one entry per csem permit. -/
def contents (s : FifoSt α) : List α :=
  (List.range s.csem).map fun i => s.data ((s.cidx + i) % s.size)

/-- States reachable from a fresh capacity-N fifo by completed pushes
and pops, counting them: FifoReach N s p c means s arises after p
completed pushes and c completed pops. -/
inductive FifoReach (N : Nat) : FifoSt Nat → Nat → Nat → Prop where
  | init : FifoReach N (fifo_new N 0) 0 0
  | push {s : FifoSt Nat} {p c : Nat} (v : Nat) {s' : FifoSt Nat} :
      FifoReach N s p c → try_push v s = some s' → FifoReach N s' (p + 1) c
  | pop {s : FifoSt Nat} {p c : Nat} {v : Nat} {s' : FifoSt Nat} :
      FifoReach N s p c → try_pop s = some (v, s') → FifoReach N s' p (c + 1)

end FifoM

namespace SMFair

/-- Wrap modulo 2^64, the behaviour of the size_t fields of
shared_mutex_fair on an LP64 platform. -/
def SIZE_MOD : Nat := 18446744073709551616

/-- A size_t decrement: wraps to 2^64 - 1 when applied to 0. -/
def sizeDec (x : Nat) : Nat := (x + (SIZE_MOD - 1)) % SIZE_MOD

/-- State of one shared_mutex_fair object (shared_mutex_fair.h struct
shared_data) together with ghost fields tracking the protocol
participants: sharedHolders counts callers granted shared access that
have not yet called unlock_shared; waitR0/waitR1 count readers parked
in lock_shared waiting for this_batch to become 0 resp. 1; waitW
counts writers parked inside lock(). -/
structure SMFState where
  sh0 : Nat
  sh1 : Nat
  thisBatch : Nat
  exclusive : Nat
  etotal : Nat
  sharedHolders : Nat
  waitR0 : Nat
  waitR1 : Nat
  waitW : Nat
deriving DecidableEq

/-- The shared reader counter of bucket b. -/
def shAt (s : SMFState) (b : Nat) : Nat := if b = 0 then s.sh0 else s.sh1

/-- Replace the shared reader counter of bucket b. -/
def setSh (s : SMFState) (b : Nat) (v : Nat) : SMFState :=
  if b = 0 then { s with sh0 := v } else { s with sh1 := v }

/-- Freshly initialized fair shared mutex: both buckets empty, batch 0
current, no writer. -/
def SMFState.init : SMFState := ⟨0, 0, 0, 0, 0, 0, 0, 0, 0⟩

/-- shared_mutex_fair::try_lock_shared (shared_mutex_fair.h lines
104-114), transcribed literally: it only checks `exclusive > 0` and
returns; it never increments shared[this_batch]. -/
def try_lock_shared (s : SMFState) : Bool × SMFState :=
  if 0 < s.exclusive then (false, s) else (true, s)

/-- shared_mutex_fair::unlock_shared (lines 119-124): decrement
shared[this_batch] (a size_t, so 0 wraps to 2^64 - 1) and broadcast if
it reached zero (the broadcast itself changes no state here). -/
def unlock_shared (s : SMFState) : SMFState :=
  setSh s s.thisBatch (sizeDec (shAt s s.thisBatch))

/-- Labels of the shared_mutex_fair protocol steps.  rFast and rGrant
are the two ways a lock_shared caller is granted access (immediately
when etotal == 0, or after being woken with its batch current); both
writer acquisitions (the end of lock() and a successful try_lock())
carry the single label wAcq. -/
inductive SMFLabel where
  | rFast | rQueue | rGrant | rRelease | tryShared | wEnter | wAcq | wUnlock
deriving DecidableEq

/-- Labeled small-step transition relation of shared_mutex_fair: one
step per mutex_-protected critical section of the source, with
condition waits modelled as steps enabled once their predicate holds.
unlock carries the correct-usage guard exclusive = 1. -/
inductive SMFLStep : SMFState → SMFLabel → SMFState → Prop where
  | rFast (s : SMFState) (h : s.etotal = 0) :
      SMFLStep s SMFLabel.rFast
        { setSh s s.thisBatch (shAt s s.thisBatch + 1) with
          sharedHolders := s.sharedHolders + 1 }
  | rQueue (s : SMFState) (h : s.etotal ≠ 0) :
      SMFLStep s SMFLabel.rQueue
        (if s.thisBatch = 0 then
          { s with sh1 := s.sh1 + 1, waitR1 := s.waitR1 + 1 }
         else
          { s with sh0 := s.sh0 + 1, waitR0 := s.waitR0 + 1 })
  | rGrant0 (s : SMFState) (hb : s.thisBatch = 0) (hw : 1 ≤ s.waitR0) :
      SMFLStep s SMFLabel.rGrant
        { s with waitR0 := s.waitR0 - 1, sharedHolders := s.sharedHolders + 1 }
  | rGrant1 (s : SMFState) (hb : s.thisBatch = 1) (hw : 1 ≤ s.waitR1) :
      SMFLStep s SMFLabel.rGrant
        { s with waitR1 := s.waitR1 - 1, sharedHolders := s.sharedHolders + 1 }
  | rRelease (s : SMFState) (hh : 1 ≤ s.sharedHolders) :
      SMFLStep s SMFLabel.rRelease
        { unlock_shared s with sharedHolders := s.sharedHolders - 1 }
  | tryShared (s : SMFState) (h : s.exclusive = 0) :
      SMFLStep s SMFLabel.tryShared
        { s with sharedHolders := s.sharedHolders + 1 }
  | wEnter (s : SMFState) :
      SMFLStep s SMFLabel.wEnter
        { s with etotal := s.etotal + 1, waitW := s.waitW + 1 }
  | wAcq (s : SMFState) (hw : 1 ≤ s.waitW) (he : s.exclusive = 0)
      (hs : shAt s s.thisBatch = 0) :
      SMFLStep s SMFLabel.wAcq
        { s with waitW := s.waitW - 1, exclusive := 1 }
  | wTry (s : SMFState) (h : shAt s s.thisBatch + s.exclusive = 0) :
      SMFLStep s SMFLabel.wAcq
        { s with etotal := s.etotal + 1, exclusive := 1 }
  | wUnlock (s : SMFState) (h : s.exclusive = 1) :
      SMFLStep s SMFLabel.wUnlock
        { s with exclusive := 0, etotal := sizeDec s.etotal,
                 thisBatch := 1 - s.thisBatch }

/-- States reachable from a fresh fair shared mutex. -/
inductive SMFReachable : SMFState → Prop where
  | init : SMFReachable SMFState.init
  | step {s : SMFState} {l : SMFLabel} {s' : SMFState} :
      SMFReachable s → SMFLStep s l s' → SMFReachable s'

/-- A finite labeled execution fragment. -/
inductive SMFPath : SMFState → List SMFLabel → SMFState → Prop where
  | nil (s : SMFState) : SMFPath s [] s
  | cons {s : SMFState} {l : SMFLabel} {s' : SMFState} {ls : List SMFLabel}
      {s'' : SMFState} :
      SMFLStep s l s' → SMFPath s' ls s'' → SMFPath s (l :: ls) s''

end SMFair

namespace SMExcl

/-- State of one shared_mutex_exclusive object
(shared_mutex_exclusive.h): the shared_data counters, the latched
reader gate cond_ (condOpen), and the global_ semaphore count. -/
structure SMEState where
  sharedCount : Nat
  exclusiveCount : Nat
  condOpen : Bool
  globalPermits : Nat
deriving DecidableEq

/-- shared_mutex_exclusive::try_lock_until (shared_mutex_exclusive.h
lines 237-262), transcribed literally.  mutexOk abstracts the outcome
of lock.try_lock_until on shared_, globalOk the outcome of
global_.wait_until.  Note the source ends with an unconditional
`return true`, outside the timeout branch. -/
def try_lock_until (mutexOk globalOk : Bool) (s : SMEState) : Bool × SMEState :=
  if mutexOk = false then (false, s)
  else
    let e1 := s.exclusiveCount + 1
    let s1 := { s with exclusiveCount := e1,
                       condOpen := if e1 = 1 then false else s.condOpen }
    if globalOk then (true, { s1 with globalPermits := s1.globalPermits - 1 })
    else
      let e2 := s1.exclusiveCount - 1
      (true, { s1 with exclusiveCount := e2,
                       condOpen := if e2 = 0 then true else s1.condOpen })

end SMExcl

namespace CondVar

/-- The predicate form condition_variable::wait_until
(condition_variable.h lines 179-189), as a fuel-indexed loop.  pred k
is the value of the k-th evaluation of the predicate, waitr k the
boolean returned by the k-th condition_base::wait_until call (true =
notified, false = timed out).  Returns none when the loop has not
terminated within the given number of iterations.  The source loops
while the predicate is false, returns pred() as soon as a wait reports
a notification, and re-enters the wait when the wait reports a
timeout. -/
def wait_until_pred (pred waitr : Nat → Bool) : Nat → Nat → Option Bool
  | 0, _ => none
  | fuel + 1, k =>
    if pred k then some true
    else if waitr k then some (pred (k + 1))
    else wait_until_pred pred waitr fuel (k + 1)

end CondVar

/-! Theorems.  First the condition_base invariants and claims C1 and
C2, then the fifo claims, the shared mutex claims, and the
condition_variable claim. -/

theorem notifyEval_out (bc : Bool) (b u g : Int) :
    (CondBase.notifyEval bc b u g = CondBase.NotifyOut.noop ∧
      ((u ≠ 0 ∧ b = 0) ∨ (u = 0 ∧ ¬ g < b)))
  ∨ (u ≠ 0 ∧ b ≠ 0 ∧
      ((bc = true ∧
          CondBase.notifyEval bc b u g = CondBase.NotifyOut.merge 0 (u + b) g b)
       ∨ (bc = false ∧
          CondBase.notifyEval bc b u g
            = CondBase.NotifyOut.merge (b - 1) (u + 1) g 1)))
  ∨ (u = 0 ∧ g < b ∧
      ((bc = true ∧
          CondBase.notifyEval bc b u g
            = CondBase.NotifyOut.gated 0 (b - g) 0 (b - g))
       ∨ (bc = false ∧
          CondBase.notifyEval bc b u g
            = CondBase.NotifyOut.gated (b - g - 1) 1 0 1))) := by
  unfold CondBase.notifyEval
  split_ifs with h1 h2 h3 h4 h5
  · exact Or.inl ⟨rfl, Or.inl ⟨h1, h2⟩⟩
  · exact Or.inr (Or.inl ⟨h1, h2, Or.inl ⟨h3, rfl⟩⟩)
  · refine Or.inr (Or.inl ⟨h1, h2, Or.inr ⟨?_, rfl⟩⟩)
    cases bc with
    | false => rfl
    | true => exact absurd rfl h3
  · exact Or.inr (Or.inr ⟨not_ne_iff.mp h1, h4, Or.inl ⟨h5, rfl⟩⟩)
  · refine Or.inr (Or.inr ⟨not_ne_iff.mp h1, h4, Or.inr ⟨?_, rfl⟩⟩)
    cases bc with
    | false => rfl
    | true => exact absurd rfl h5
  · exact Or.inl ⟨rfl, Or.inr ⟨not_ne_iff.mp h1, h4⟩⟩

theorem cb_inv_step {s s' : CondBase.CBState}
    (h : CondBase.CBInv s) (hs : CondBase.CBStep s s') : CondBase.CBInv s' := by
  obtain ⟨hg, hu, hb⟩ := h
  cases hs with
  | enter s h1 =>
      exact ⟨hg, hu, fun hx => by
        have := hb hx
        show (0:Int) ≤ s.blocked + 1
        omega⟩
  | wake s hp hq => exact ⟨hg, hu, hb⟩
  | timeout s hp => exact ⟨hg, hu, hb⟩
  | post s hp => exact ⟨hg, hu, hb⟩
  | tailDrain s g hm hq => exact ⟨hg, hu, hb⟩
  | tailFinish s hm => exact ⟨hg, hu, hb⟩
  | acct t s hsrc hgate =>
      simp only [CondBase.acctNext, CondBase.CBInv]
      split_ifs <;>
        (try have hbb : (0:Int) ≤ s.blocked := hb (by omega)) <;>
        refine ⟨?_, ?_, ?_⟩ <;> (try intro hx) <;> (try dsimp only at *) <;> omega
  | notify bc s hgate =>
      rcases notifyEval_out bc s.blocked s.unblock s.gone with
        ⟨he, _⟩ |
        ⟨h1, h2, ⟨_, he⟩ | ⟨_, he⟩⟩ |
        ⟨h1, h2, ⟨_, he⟩ | ⟨_, he⟩⟩ <;>
        simp only [CondBase.notifyNext, he] <;>
        (try have hbb : (0:Int) ≤ s.blocked := hb h1) <;>
        refine ⟨?_, ?_, ?_⟩ <;> (try intro hx) <;> (try dsimp only at *) <;> omega

theorem cb_reachable_inv {s : CondBase.CBState}
    (hr : CondBase.CBReachable s) : CondBase.CBInv s := by
  induction hr with
  | init => exact ⟨by decide, by decide, fun _ => by decide⟩
  | step hr hs ih => exact cb_inv_step ih hs

/-- C1: in every reachable state of the waiter-accounting block, if
blocked - gone = 0 and no generation is draining (unblock = 0), both
notify_one and notify_all leave the three counters unchanged and post
no block_queue permit; and if blocked - gone is at least 1, notify_one
lowers blocked - gone by exactly one, raises unblock by exactly one,
and posts exactly one block_queue permit. -/
theorem condition_base_notify_exact (s : CondBase.CBState)
    (hr : CondBase.CBReachable s) :
    ((s.blocked - s.gone = 0 ∧ s.unblock = 0) →
      (CondBase.notifyRun false s.blocked s.unblock s.gone
          = ((s.blocked, s.unblock, s.gone), 0) ∧
       CondBase.notifyRun true s.blocked s.unblock s.gone
          = ((s.blocked, s.unblock, s.gone), 0)))
  ∧ (1 ≤ s.blocked - s.gone →
      ((CondBase.notifyRun false s.blocked s.unblock s.gone).1.1
          - (CondBase.notifyRun false s.blocked s.unblock s.gone).1.2.2
        = s.blocked - s.gone - 1 ∧
       (CondBase.notifyRun false s.blocked s.unblock s.gone).1.2.1
        = s.unblock + 1 ∧
       (CondBase.notifyRun false s.blocked s.unblock s.gone).2 = 1)) := by
  obtain ⟨hg, hu, hb⟩ := cb_reachable_inv hr
  constructor
  · rintro ⟨h1, h2⟩
    have e : ∀ bc, CondBase.notifyEval bc s.blocked s.unblock s.gone
        = CondBase.NotifyOut.noop := by
      intro bc
      unfold CondBase.notifyEval
      rw [if_neg (by omega), if_neg (by omega)]
    constructor <;> simp [CondBase.notifyRun, e]
  · intro h1
    rcases notifyEval_out false s.blocked s.unblock s.gone with
      ⟨he, hc⟩ |
      ⟨h2, h3, ⟨hbc, he⟩ | ⟨hbc, he⟩⟩ |
      ⟨h2, h3, ⟨hbc, he⟩ | ⟨hbc, he⟩⟩
    · exfalso
      rcases hc with ⟨hcu, hcb⟩ | ⟨hcu, hcb⟩
      · have := hb hcu
        omega
      · omega
    · exact absurd hbc (by decide)
    · simp only [CondBase.notifyRun, he]
      exact ⟨by omega, trivial, trivial⟩
    · exact absurd hbc (by decide)
    · simp only [CondBase.notifyRun, he]
      exact ⟨by omega, by omega, trivial⟩

theorem condition_base_notify_exact_witness :
    (1:Int) ≤ 1 - 0 ∧
    ((CondBase.notifyRun false 1 0 0).1.1
        - (CondBase.notifyRun false 1 0 0).1.2.2 = 1 - 0 - 1 ∧
     (CondBase.notifyRun false 1 0 0).1.2.1 = 0 + 1 ∧
     (CondBase.notifyRun false 1 0 0).2 = 1) := by
  have e1 : ({ CondBase.CBState.init with
      blocked := CondBase.CBState.init.blocked + 1,
      parked := CondBase.CBState.init.parked + 1 } : CondBase.CBState)
      = ⟨1, 0, 0, 1, 0, 0, 1, 0, 0, 0⟩ := by decide
  have hr : CondBase.CBReachable ⟨1, 0, 0, 1, 0, 0, 1, 0, 0, 0⟩ :=
    e1 ▸ CondBase.CBReachable.step CondBase.CBReachable.init
      (CondBase.CBStep.enter CondBase.CBState.init (by decide))
  exact ⟨by norm_num,
    (condition_base_notify_exact ⟨1, 0, 0, 1, 0, 0, 1, 0, 0, 0⟩ hr).2 (by norm_num)⟩

/-- C2 (amended): every step of the wait/notify protocol preserves
blocked at least 0, unblock at least 0 and gone at least 0, provided
gone is still below the LONG_MAX/2 folding threshold; the further part
of the original claim, gone at most blocked, is not preserved (see the
counterexample theorem). -/
theorem condition_base_step_preserves_nonneg (s s' : CondBase.CBState)
    (hb : 0 ≤ s.blocked) (hu : 0 ≤ s.unblock) (hg : 0 ≤ s.gone)
    (hth : s.gone + 1 < CondBase.goneThreshold)
    (hstep : CondBase.CBStep s s') :
    0 ≤ s'.blocked ∧ 0 ≤ s'.unblock ∧ 0 ≤ s'.gone := by
  cases hstep with
  | enter s h1 =>
      exact ⟨by show (0:Int) ≤ s.blocked + 1; omega, hu, hg⟩
  | wake s hp hq => exact ⟨hb, hu, hg⟩
  | timeout s hp => exact ⟨hb, hu, hg⟩
  | post s hp => exact ⟨hb, hu, hg⟩
  | tailDrain s g hm hq => exact ⟨hb, hu, hg⟩
  | tailFinish s hm => exact ⟨hb, hu, hg⟩
  | acct t s hsrc hgate =>
      simp only [CondBase.acctNext]
      split_ifs <;>
        refine ⟨?_, ?_, ?_⟩ <;> (try dsimp only) <;> omega
  | notify bc s hgate =>
      rcases notifyEval_out bc s.blocked s.unblock s.gone with
        ⟨he, _⟩ |
        ⟨h1, h2, ⟨_, he⟩ | ⟨_, he⟩⟩ |
        ⟨h1, h2, ⟨_, he⟩ | ⟨_, he⟩⟩ <;>
        simp only [CondBase.notifyNext, he] <;>
        refine ⟨?_, ?_, ?_⟩ <;> (try dsimp only) <;> omega

theorem condition_base_step_preserves_nonneg_witness :
    (0:Int) ≤ 0 ∧ (0:Int) + 1 < CondBase.goneThreshold ∧
    (0 ≤ (⟨1, 0, 0, 1, 0, 0, 1, 0, 0, 0⟩ : CondBase.CBState).blocked ∧
     0 ≤ (⟨1, 0, 0, 1, 0, 0, 1, 0, 0, 0⟩ : CondBase.CBState).unblock ∧
     0 ≤ (⟨1, 0, 0, 1, 0, 0, 1, 0, 0, 0⟩ : CondBase.CBState).gone) := by
  have e1 : ({ CondBase.CBState.init with
      blocked := CondBase.CBState.init.blocked + 1,
      parked := CondBase.CBState.init.parked + 1 } : CondBase.CBState)
      = ⟨1, 0, 0, 1, 0, 0, 1, 0, 0, 0⟩ := by decide
  have hstep : CondBase.CBStep CondBase.CBState.init ⟨1, 0, 0, 1, 0, 0, 1, 0, 0, 0⟩ :=
    e1 ▸ CondBase.CBStep.enter CondBase.CBState.init (by decide)
  exact ⟨by decide, by decide,
    condition_base_step_preserves_nonneg CondBase.CBState.init _
      (by decide) (by decide) (by decide) (by decide) hstep⟩

/-- C2 counterexample: a reachable state of the protocol that
satisfies all four claimed invariants, and a single protocol step from
it (a parked waiter of a draining notify_all generation handling its
timeout, condition_base.h lines 298-307) after which gone exceeds
blocked, so gone at most blocked is not preserved and blocked - gone
is negative. -/
theorem condition_base_gone_exceeds_blocked :
    CondBase.CBReachable ⟨0, 2, 0, 0, 0, 2, 1, 1, 0, 0⟩ ∧
    (0 ≤ (⟨0, 2, 0, 0, 0, 2, 1, 1, 0, 0⟩ : CondBase.CBState).blocked ∧
     0 ≤ (⟨0, 2, 0, 0, 0, 2, 1, 1, 0, 0⟩ : CondBase.CBState).unblock ∧
     0 ≤ (⟨0, 2, 0, 0, 0, 2, 1, 1, 0, 0⟩ : CondBase.CBState).gone ∧
     (⟨0, 2, 0, 0, 0, 2, 1, 1, 0, 0⟩ : CondBase.CBState).gone
       ≤ (⟨0, 2, 0, 0, 0, 2, 1, 1, 0, 0⟩ : CondBase.CBState).blocked) ∧
    CondBase.CBStep ⟨0, 2, 0, 0, 0, 2, 1, 1, 0, 0⟩ ⟨0, 1, 1, 0, 0, 2, 1, 0, 0, 0⟩ ∧
    ¬ ((⟨0, 1, 1, 0, 0, 2, 1, 0, 0, 0⟩ : CondBase.CBState).gone
        ≤ (⟨0, 1, 1, 0, 0, 2, 1, 0, 0, 0⟩ : CondBase.CBState).blocked) := by
  have e1 : ({ CondBase.CBState.init with
      blocked := CondBase.CBState.init.blocked + 1,
      parked := CondBase.CBState.init.parked + 1 } : CondBase.CBState)
      = ⟨1, 0, 0, 1, 0, 0, 1, 0, 0, 0⟩ := by decide
  have r1 : CondBase.CBReachable ⟨1, 0, 0, 1, 0, 0, 1, 0, 0, 0⟩ :=
    e1 ▸ CondBase.CBReachable.step CondBase.CBReachable.init
      (CondBase.CBStep.enter CondBase.CBState.init (by decide))
  have e2 : ({ (⟨1, 0, 0, 1, 0, 0, 1, 0, 0, 0⟩ : CondBase.CBState) with
      blocked := (⟨1, 0, 0, 1, 0, 0, 1, 0, 0, 0⟩ : CondBase.CBState).blocked + 1,
      parked := (⟨1, 0, 0, 1, 0, 0, 1, 0, 0, 0⟩ : CondBase.CBState).parked + 1 }
      : CondBase.CBState) = ⟨2, 0, 0, 1, 0, 0, 2, 0, 0, 0⟩ := by decide
  have r2 : CondBase.CBReachable ⟨2, 0, 0, 1, 0, 0, 2, 0, 0, 0⟩ :=
    e2 ▸ CondBase.CBReachable.step r1
      (CondBase.CBStep.enter ⟨1, 0, 0, 1, 0, 0, 1, 0, 0, 0⟩ (by decide))
  have e3 : CondBase.notifyNext true ⟨2, 0, 0, 1, 0, 0, 2, 0, 0, 0⟩
      = ⟨0, 2, 0, 0, 0, 2, 2, 0, 0, 0⟩ := by decide
  have r3 : CondBase.CBReachable ⟨0, 2, 0, 0, 0, 2, 2, 0, 0, 0⟩ :=
    e3 ▸ CondBase.CBReachable.step r2
      (CondBase.CBStep.notify true ⟨2, 0, 0, 1, 0, 0, 2, 0, 0, 0⟩
        (fun _ _ => by decide))
  have e4 : ({ (⟨0, 2, 0, 0, 0, 2, 2, 0, 0, 0⟩ : CondBase.CBState) with
      parked := (⟨0, 2, 0, 0, 0, 2, 2, 0, 0, 0⟩ : CondBase.CBState).parked - 1,
      acctTimed := (⟨0, 2, 0, 0, 0, 2, 2, 0, 0, 0⟩ : CondBase.CBState).acctTimed + 1 }
      : CondBase.CBState) = ⟨0, 2, 0, 0, 0, 2, 1, 1, 0, 0⟩ := by decide
  have r4 : CondBase.CBReachable ⟨0, 2, 0, 0, 0, 2, 1, 1, 0, 0⟩ :=
    e4 ▸ CondBase.CBReachable.step r3
      (CondBase.CBStep.timeout ⟨0, 2, 0, 0, 0, 2, 2, 0, 0, 0⟩ (by decide))
  have e5 : CondBase.acctNext true ⟨0, 2, 0, 0, 0, 2, 1, 1, 0, 0⟩
      = ⟨0, 1, 1, 0, 0, 2, 1, 0, 0, 0⟩ := by decide
  have st5 : CondBase.CBStep ⟨0, 2, 0, 0, 0, 2, 1, 1, 0, 0⟩
      ⟨0, 1, 1, 0, 0, 2, 1, 0, 0, 0⟩ :=
    e5 ▸ CondBase.CBStep.acct true ⟨0, 2, 0, 0, 0, 2, 1, 1, 0, 0⟩
      (by decide) (fun h => absurd h (by decide))
  exact ⟨r4, ⟨by decide, by decide, by decide, by decide⟩, st5, by decide⟩

theorem add_mod_inj {size a i j : Nat} (hi : i < size) (hj : j < size)
    (h : (a + i) % size = (a + j) % size) : i = j := by
  rcases Nat.le_total i j with hle | hle
  · have hd : size ∣ (a + j) - (a + i) := (Nat.modEq_iff_dvd' (by omega)).mp h
    have hd2 : size ∣ j - i := by
      have e : (a + j) - (a + i) = j - i := by omega
      rwa [e] at hd
    rcases Nat.eq_zero_or_pos (j - i) with h0 | h0
    · omega
    · have := Nat.le_of_dvd h0 hd2
      omega
  · have hd : size ∣ (a + i) - (a + j) := (Nat.modEq_iff_dvd' (by omega)).mp h.symm
    have hd2 : size ∣ i - j := by
      have e : (a + i) - (a + j) = i - j := by omega
      rwa [e] at hd
    rcases Nat.eq_zero_or_pos (i - j) with h0 | h0
    · omega
    · have := Nat.le_of_dvd h0 hd2
      omega

theorem fifo_wrap {p size : Nat} (hp : p < size) :
    (if p + 1 = size then 0 else p + 1) = (p + 1) % size := by
  split_ifs with h
  · rw [h, Nat.mod_self]
  · exact (Nat.mod_eq_of_lt (by omega)).symm

theorem fifo_try_push_spec {α : Type} (v : α) (s : FifoM.FifoSt α)
    (hwf : FifoM.WF s) (hroom : 0 < s.psem) :
    ∃ s', FifoM.try_push v s = some s' ∧ s'.size = s.size ∧ s'.cidx = s.cidx ∧
      s'.psem = s.psem - 1 ∧ s'.csem = s.csem + 1 ∧ FifoM.WF s' ∧
      FifoM.contents s' = FifoM.contents s ++ [v] := by
  obtain ⟨hsz, hc, hsem, hpi⟩ := hwf
  have hpx : s.pidx < s.size := by rw [hpi]; exact Nat.mod_lt _ hsz
  have hcs : s.csem < s.size := by omega
  have hne : ¬ (s.psem = 0) := by omega
  refine ⟨⟨s.size, if s.pidx + 1 = s.size then 0 else s.pidx + 1, s.cidx,
      fun i => if i = s.pidx then v else s.data i, s.psem - 1, s.csem + 1⟩,
    ?_, rfl, rfl, rfl, rfl, ?_, ?_⟩
  · simp only [FifoM.try_push, FifoM.push_item, if_neg hne]
  · refine ⟨hsz, hc, by show s.psem - 1 + (s.csem + 1) = s.size; omega, ?_⟩
    show (if s.pidx + 1 = s.size then 0 else s.pidx + 1)
        = (s.cidx + (s.csem + 1)) % s.size
    rw [fifo_wrap hpx, hpi, Nat.mod_add_mod]
    have e : s.cidx + s.csem + 1 = s.cidx + (s.csem + 1) := by omega
    rw [e]
  · show (List.range (s.csem + 1)).map
        (fun i => if (s.cidx + i) % s.size = s.pidx then v
                  else s.data ((s.cidx + i) % s.size))
      = FifoM.contents s ++ [v]
    rw [List.range_succ, List.map_append]
    congr 1
    · refine List.map_congr_left ?_
      intro i hi
      have hilt : i < s.csem := List.mem_range.mp hi
      have hneq : (s.cidx + i) % s.size ≠ s.pidx := by
        intro he
        rw [hpi] at he
        have := add_mod_inj (by omega) hcs he
        omega
      simp only [if_neg hneq]
    · simp only [List.map_cons, List.map_nil]
      rw [if_pos hpi.symm]

theorem fifo_try_pop_spec {α : Type} (s : FifoM.FifoSt α)
    (hwf : FifoM.WF s) (hne : 0 < s.csem) :
    ∃ s', FifoM.try_pop s = some (s.data s.cidx, s') ∧ s'.size = s.size ∧
      s'.psem = s.psem + 1 ∧ s'.csem = s.csem - 1 ∧ FifoM.WF s' ∧
      FifoM.contents s = s.data s.cidx :: FifoM.contents s' := by
  obtain ⟨hsz, hc, hsem, hpi⟩ := hwf
  have hne0 : ¬ (s.csem = 0) := by omega
  refine ⟨⟨s.size, s.pidx, if s.cidx + 1 = s.size then 0 else s.cidx + 1,
      s.data, s.psem + 1, s.csem - 1⟩, ?_, rfl, rfl, rfl, ?_, ?_⟩
  · simp only [FifoM.try_pop, FifoM.pop_item, if_neg hne0]
  · refine ⟨hsz, ?_, by show s.psem + 1 + (s.csem - 1) = s.size; omega, ?_⟩
    · show (if s.cidx + 1 = s.size then 0 else s.cidx + 1) < s.size
      rw [fifo_wrap hc]
      exact Nat.mod_lt _ hsz
    · show s.pidx
        = ((if s.cidx + 1 = s.size then 0 else s.cidx + 1) + (s.csem - 1)) % s.size
      rw [fifo_wrap hc, Nat.mod_add_mod]
      have e : s.cidx + 1 + (s.csem - 1) = s.cidx + s.csem := by omega
      rw [e, ← hpi]
  · show (List.range s.csem).map (fun i => s.data ((s.cidx + i) % s.size))
      = s.data s.cidx :: (List.range (s.csem - 1)).map
          (fun i => s.data
            (((if s.cidx + 1 = s.size then 0 else s.cidx + 1) + i) % s.size))
    rw [fifo_wrap hc]
    obtain ⟨k, hk⟩ : ∃ k, s.csem = k + 1 := ⟨s.csem - 1, by omega⟩
    rw [hk]
    simp only [Nat.add_sub_cancel]
    rw [List.range_succ_eq_map]
    simp only [List.map_cons, List.map_map]
    congr 1
    · have e0 : (s.cidx + 0) % s.size = s.cidx := by
        rw [Nat.add_zero]
        exact Nat.mod_eq_of_lt hc
      rw [e0]
    · refine List.map_congr_left ?_
      intro i hi
      show s.data ((s.cidx + (i + 1)) % s.size)
          = s.data (((s.cidx + 1) % s.size + i) % s.size)
      rw [Nat.mod_add_mod]
      have e2 : s.cidx + (i + 1) = s.cidx + 1 + i := by omega
      rw [e2]

theorem fifo_pushSeq_spec {α : Type} :
    ∀ (vs : List α) (s : FifoM.FifoSt α), FifoM.WF s → vs.length ≤ s.psem →
    ∃ s', FifoM.pushSeq s vs = some s' ∧ FifoM.WF s' ∧
      FifoM.contents s' = FifoM.contents s ++ vs ∧
      s'.csem = s.csem + vs.length ∧ s'.size = s.size ∧
      s'.psem = s.psem - vs.length := by
  intro vs
  induction vs with
  | nil =>
      intro s hwf hlen
      exact ⟨s, rfl, hwf, by simp, by simp, rfl, by simp⟩
  | cons v vs ih =>
      intro s hwf hlen
      obtain ⟨s1, he, hsz, hcx, hps, hcs, hwf1, hct⟩ :=
        fifo_try_push_spec v s hwf (by simp at hlen; omega)
      obtain ⟨s2, he2, hwf2, hct2, hcs2, hsz2, hps2⟩ :=
        ih s1 hwf1 (by simp at hlen ⊢; omega)
      refine ⟨s2, ?_, hwf2, ?_, ?_, ?_, ?_⟩
      · simp only [FifoM.pushSeq, he, he2]
      · rw [hct2, hct]
        simp
      · rw [hcs2, hcs]
        simp
        omega
      · rw [hsz2, hsz]
      · rw [hps2, hps]
        simp at hlen ⊢
        omega

theorem fifo_popSeq_all {α : Type} :
    ∀ (n : Nat) (s : FifoM.FifoSt α), FifoM.WF s → s.csem = n →
    ∃ s', FifoM.popSeq s n = some (FifoM.contents s, s') ∧ FifoM.WF s' ∧
      s'.csem = 0 := by
  intro n
  induction n with
  | zero =>
      intro s hwf hcs
      refine ⟨s, ?_, hwf, hcs⟩
      have : FifoM.contents s = [] := by
        unfold FifoM.contents
        rw [hcs]
        simp
      rw [this]
      rfl
  | succ n ih =>
      intro s hwf hcs
      obtain ⟨s1, he, hsz, hps, hcs1, hwf1, hct⟩ :=
        fifo_try_pop_spec s hwf (by omega)
      obtain ⟨s2, he2, hwf2, hcs2⟩ := ih s1 hwf1 (by omega)
      refine ⟨s2, ?_, hwf2, hcs2⟩
      simp only [FifoM.popSeq, he, he2, hct]

/-- C7: from any well-formed empty fifo state (any capacity, any index
position, so in particular across wrap-around), pushing the values vs
(at most capacity many) succeeds and then popping vs.length times
returns exactly vs, in order. -/
theorem fifo_order_preserved (s : FifoM.FifoSt Nat) (vs : List Nat)
    (hwf : FifoM.WF s) (hempty : s.csem = 0) (hlen : vs.length ≤ s.size) :
    ∃ s' s'', FifoM.pushSeq s vs = some s' ∧
      FifoM.popSeq s' vs.length = some (vs, s'') := by
  obtain ⟨hsz, hc, hsem, hpi⟩ := hwf
  obtain ⟨s1, he, hwf1, hct, hcs, hsz1, hps⟩ :=
    fifo_pushSeq_spec vs s ⟨hsz, hc, hsem, hpi⟩ (by omega)
  obtain ⟨s2, he2, hwf2, hcs2⟩ := fifo_popSeq_all vs.length s1 hwf1 (by omega)
  refine ⟨s1, s2, he, ?_⟩
  rw [he2, hct]
  have : FifoM.contents s = [] := by
    unfold FifoM.contents
    rw [hempty]
    simp
  rw [this]
  simp

theorem fifo_order_preserved_witness :
    FifoM.WF (⟨3, 2, 2, fun _ => 0, 3, 0⟩ : FifoM.FifoSt Nat) ∧
    (⟨3, 2, 2, fun _ => 0, 3, 0⟩ : FifoM.FifoSt Nat).csem = 0 ∧
    ([10, 20, 30] : List Nat).length ≤ (⟨3, 2, 2, fun _ => 0, 3, 0⟩ : FifoM.FifoSt Nat).size ∧
    (∃ s' s'', FifoM.pushSeq (⟨3, 2, 2, fun _ => 0, 3, 0⟩ : FifoM.FifoSt Nat) [10, 20, 30] = some s' ∧
      FifoM.popSeq s' ([10, 20, 30] : List Nat).length = some ([10, 20, 30], s'')) :=
  ⟨⟨by decide, by decide, by decide, by decide⟩, rfl, by decide,
    fifo_order_preserved ⟨3, 2, 2, fun _ => 0, 3, 0⟩ [10, 20, 30]
      ⟨by decide, by decide, by decide, by decide⟩ rfl (by decide)⟩

theorem fifo_reach_spec {N : Nat} {s : FifoM.FifoSt Nat} {p c : Nat}
    (h : FifoM.FifoReach N s p c) :
    s.size = N ∧ c ≤ p ∧ p - c ≤ N ∧ s.csem = p - c ∧
    s.psem = N - (p - c) ∧ (0 < N → FifoM.WF s) := by
  induction h with
  | init =>
      refine ⟨rfl, Nat.le_refl 0, by omega, rfl, by simp [FifoM.fifo_new], ?_⟩
      intro hN
      exact ⟨hN, hN, by simp [FifoM.fifo_new], by simp [FifoM.fifo_new]⟩
  | push v hr hpush ih =>
      obtain ⟨hsz, hcp, hle, hcs, hps, hwf⟩ := ih
      rename_i s0 p0 c0 s1
      have hpne : s0.psem ≠ 0 := by
        intro h0
        rw [FifoM.try_push, if_pos h0] at hpush
        exact Option.noConfusion hpush
      have hN : 0 < N := by omega
      obtain ⟨t, ht, htsz, htcx, htps, htcs, htwf, htct⟩ :=
        fifo_try_push_spec v s0 (hwf hN) (by omega)
      have hts : t = s1 := Option.some.inj (ht.symm.trans hpush)
      subst hts
      refine ⟨by omega, by omega, by omega, by omega, by omega, fun _ => htwf⟩
  | pop hr hpop ih =>
      obtain ⟨hsz, hcp, hle, hcs, hps, hwf⟩ := ih
      rename_i s0 p0 c0 v s1
      have hcne : s0.csem ≠ 0 := by
        intro h0
        rw [FifoM.try_pop, if_pos h0] at hpop
        exact Option.noConfusion hpop
      have hN : 0 < N := by omega
      obtain ⟨t, ht, htsz, htps, htcs, htwf, htct⟩ :=
        fifo_try_pop_spec s0 (hwf hN) (by omega)
      have hts : t = s1 := by
        have := ht.symm.trans hpop
        exact (Prod.mk.injEq _ _ _ _ ▸ Option.some.inj this).2
      subst hts
      refine ⟨by omega, by omega, by omega, by omega, by omega, fun _ => htwf⟩

/-- C8 (amended): after p completed pushes and c completed pops on a
fifo of capacity N, the fifo holds p - c items (its csem count), and
size() returns (producer_index - consumer_index) mod N, which equals
(p - c) mod N: this is p - c whenever p - c < N, but it is 0 in the
full case p - c = N, where the two indexes coincide. -/
theorem fifo_size_counts_items (N : Nat) (s : FifoM.FifoSt Nat) (p c : Nat)
    (hr : FifoM.FifoReach N s p c) (hN : 0 < N) :
    s.csem = p - c ∧ FifoM.fifo_size s = (p - c) % N ∧
    (p - c < N → FifoM.fifo_size s = p - c) ∧
    (p - c = N → FifoM.fifo_size s = 0) := by
  obtain ⟨hsz, hcp, hle, hcs, hps, hwf⟩ := fifo_reach_spec hr
  obtain ⟨_, hc, hsem, hpi⟩ := hwf hN
  rw [hsz] at hc hsem hpi
  have hp : (s.cidx + s.csem < N ∧ s.pidx = s.cidx + s.csem) ∨
      (N ≤ s.cidx + s.csem ∧ s.pidx = s.cidx + s.csem - N) := by
    rcases Nat.lt_or_ge (s.cidx + s.csem) N with h1 | h1
    · exact Or.inl ⟨h1, by rw [hpi]; exact Nat.mod_eq_of_lt h1⟩
    · refine Or.inr ⟨h1, ?_⟩
      rw [hpi, Nat.mod_eq_sub_mod h1]
      exact Nat.mod_eq_of_lt (by omega)
  have hq : (p - c < N ∧ (p - c) % N = p - c) ∨ (p - c = N ∧ (p - c) % N = 0) := by
    rcases Nat.lt_or_ge (p - c) N with h1 | h1
    · exact Or.inl ⟨h1, Nat.mod_eq_of_lt h1⟩
    · have he : p - c = N := by omega
      exact Or.inr ⟨he, by rw [he, Nat.mod_self]⟩
  unfold FifoM.fifo_size
  rw [hsz]
  split_ifs with hlt <;>
    rcases hp with ⟨h1, h2⟩ | ⟨h1, h2⟩ <;>
    rcases hq with ⟨h3, h4⟩ | ⟨h3, h4⟩ <;>
    refine ⟨by omega, by omega, fun hx => by omega, fun hx => by omega⟩

theorem fifo_size_counts_items_witness :
    ∃ s : FifoM.FifoSt Nat, FifoM.FifoReach 2 s 1 0 ∧
      (s.csem = 1 - 0 ∧ FifoM.fifo_size s = (1 - 0) % 2 ∧
       (1 - 0 < 2 → FifoM.fifo_size s = 1 - 0) ∧
       (1 - 0 = 2 → FifoM.fifo_size s = 0)) := by
  have hr := FifoM.FifoReach.push (N := 2) 10 FifoM.FifoReach.init rfl
  exact ⟨_, hr, fifo_size_counts_items 2 _ 1 0 hr (by decide)⟩

/-- C8 counterexample: a capacity-2 fifo after two pushes and no pops
holds 2 items (csem = 2), but the producer and consumer indexes have
wrapped to equality, so size() returns 0, not p - c = 2, and the
claimed identity p - c = (pidx - cidx) mod N fails at p - c = N. -/
theorem fifo_size_full_queue_zero :
    (FifoM.pushSeq (FifoM.fifo_new 2 0) [10, 20]).map
        (fun s => (FifoM.fifo_size s, s.csem, FifoM.fifo_empty s))
      = some (0, 2, true) ∧ (0 : Nat) ≠ 2 := by
  constructor
  · rfl
  · decide

/-- C4: peek and try_peek consume the csem permit and never restore
it.  On a capacity-2 fifo holding the single item 10, try_peek returns
the front item 10 but leaves csem = 0 and psem = 1 (so psem + csem is
1, not the capacity 2), a second try_peek fails, and a subsequent
try_pop fails even though the item is still stored; the claim says the
queue state is unchanged and the pop succeeds. -/
theorem fifo_peek_consumes_permit :
    ((FifoM.try_push 10 (FifoM.fifo_new 2 0)).bind
        (fun s => FifoM.try_peek s)).map
      (fun r => (r.1, r.2.csem, r.2.psem, (FifoM.try_peek r.2).isSome,
                 (FifoM.try_pop r.2).isSome))
    = some (10, 0, 1, false, false) := by
  rfl

/-- C3: the mutual-exclusion invariant fails on the fair variant.  A
caller whose try_lock_shared returned true (shared_mutex_fair.h lines
104-114 never increment shared[this_batch]) still holds shared access
when a writer runs lock(): the writer predicate sees
shared[this_batch] = 0 and exclusive = 0 and is granted, reaching a
state with an exclusive holder and one outstanding shared holder. -/
theorem shared_mutex_fair_shared_exclusive_overlap :
    SMFair.SMFReachable ⟨0, 0, 0, 1, 1, 1, 0, 0, 0⟩ ∧
    (⟨0, 0, 0, 1, 1, 1, 0, 0, 0⟩ : SMFair.SMFState).exclusive = 1 ∧
    1 ≤ (⟨0, 0, 0, 1, 1, 1, 0, 0, 0⟩ : SMFair.SMFState).sharedHolders := by
  have e1 : ({ SMFair.SMFState.init with
      sharedHolders := SMFair.SMFState.init.sharedHolders + 1 } : SMFair.SMFState)
      = ⟨0, 0, 0, 0, 0, 1, 0, 0, 0⟩ := by decide
  have r1 : SMFair.SMFReachable ⟨0, 0, 0, 0, 0, 1, 0, 0, 0⟩ :=
    e1 ▸ SMFair.SMFReachable.step SMFair.SMFReachable.init
      (SMFair.SMFLStep.tryShared SMFair.SMFState.init (by decide))
  have e2 : ({ (⟨0, 0, 0, 0, 0, 1, 0, 0, 0⟩ : SMFair.SMFState) with
      etotal := (⟨0, 0, 0, 0, 0, 1, 0, 0, 0⟩ : SMFair.SMFState).etotal + 1,
      waitW := (⟨0, 0, 0, 0, 0, 1, 0, 0, 0⟩ : SMFair.SMFState).waitW + 1 }
      : SMFair.SMFState) = ⟨0, 0, 0, 0, 1, 1, 0, 0, 1⟩ := by decide
  have r2 : SMFair.SMFReachable ⟨0, 0, 0, 0, 1, 1, 0, 0, 1⟩ :=
    e2 ▸ SMFair.SMFReachable.step r1
      (SMFair.SMFLStep.wEnter ⟨0, 0, 0, 0, 0, 1, 0, 0, 0⟩)
  have e3 : ({ (⟨0, 0, 0, 0, 1, 1, 0, 0, 1⟩ : SMFair.SMFState) with
      waitW := (⟨0, 0, 0, 0, 1, 1, 0, 0, 1⟩ : SMFair.SMFState).waitW - 1,
      exclusive := 1 } : SMFair.SMFState) = ⟨0, 0, 0, 1, 1, 1, 0, 0, 0⟩ := by decide
  have r3 : SMFair.SMFReachable ⟨0, 0, 0, 1, 1, 1, 0, 0, 0⟩ :=
    e3 ▸ SMFair.SMFReachable.step r2
      (SMFair.SMFLStep.wAcq ⟨0, 0, 0, 0, 1, 1, 0, 0, 1⟩
        (by decide) (by decide) (by decide))
  exact ⟨r3, rfl, by decide⟩

/-- C10: the try_lock_shared / unlock_shared round trip does not
restore the state.  From the initial fair shared mutex,
try_lock_shared returns true without registering the reader (no
counter is incremented), and the matching unlock_shared then
decrements the size_t counter shared[this_batch] from 0, wrapping it
to 2^64 - 1. -/
theorem shared_mutex_fair_roundtrip_underflow :
    (SMFair.try_lock_shared SMFair.SMFState.init).1 = true ∧
    (SMFair.try_lock_shared SMFair.SMFState.init).2 = SMFair.SMFState.init ∧
    (SMFair.unlock_shared
        (SMFair.try_lock_shared SMFair.SMFState.init).2).sh0
      = 18446744073709551615 ∧
    SMFair.unlock_shared (SMFair.try_lock_shared SMFair.SMFState.init).2
      ≠ SMFair.SMFState.init := by
  refine ⟨rfl, rfl, by decide, by decide⟩

theorem smf_nogrant_inv : ∀ {u : SMFair.SMFState} {ls : List SMFair.SMFLabel}
    {v : SMFair.SMFState}, SMFair.SMFPath u ls v →
    (∀ l ∈ ls, l ≠ SMFair.SMFLabel.rGrant ∧ l ≠ SMFair.SMFLabel.tryShared) →
    u.exclusive = 0 → 1 ≤ u.etotal →
    1 + u.sharedHolders ≤ SMFair.shAt u u.thisBatch →
    SMFair.shAt u u.thisBatch < SMFair.SIZE_MOD →
    v.exclusive = 0 ∧ 1 ≤ v.etotal ∧
    1 + v.sharedHolders ≤ SMFair.shAt v v.thisBatch ∧
    SMFair.shAt v v.thisBatch < SMFair.SIZE_MOD := by
  intro u ls v hp
  induction hp with
  | nil s =>
      intro _ h1 h2 h3 h4
      exact ⟨h1, h2, h3, h4⟩
  | cons hstep hpath ih =>
      intro hls h1 h2 h3 h4
      have htl : ∀ l ∈ _, l ≠ SMFair.SMFLabel.rGrant ∧ l ≠ SMFair.SMFLabel.tryShared :=
        fun l hl => hls l (List.mem_cons_of_mem _ hl)
      cases hstep with
      | rFast h =>
          exact absurd h (by omega)
      | rQueue h =>
          refine ih htl ?_ ?_ ?_ ?_ <;>
            simp only [SMFair.shAt] at h3 h4 ⊢ <;>
            split_ifs at h3 h4 ⊢ <;> dsimp only at * <;> omega
      | rGrant0 hb hw =>
          exact absurd rfl (hls _ (List.mem_cons_self _ _)).1
      | rGrant1 hb hw =>
          exact absurd rfl (hls _ (List.mem_cons_self _ _)).1
      | rRelease hh =>
          refine ih htl ?_ ?_ ?_ ?_ <;>
            simp only [SMFair.unlock_shared, SMFair.setSh, SMFair.shAt,
              SMFair.sizeDec, SMFair.SIZE_MOD] at h3 h4 ⊢ <;>
            split_ifs at h3 h4 ⊢ <;> dsimp only at * <;> omega
      | tryShared h =>
          exact absurd rfl (hls _ (List.mem_cons_self _ _)).2
      | wEnter =>
          refine ih htl ?_ ?_ ?_ ?_ <;>
            simp only [SMFair.shAt] at h3 h4 ⊢ <;>
            split_ifs at h3 h4 ⊢ <;> dsimp only at * <;> omega
      | wAcq hw he hs =>
          exact absurd hs (by omega)
      | wTry h =>
          exact absurd h (by omega)
      | wUnlock h =>
          exact absurd h (by omega)

/-- C9 (amended): the batch flag flips on every writer unlock; and in
any execution fragment that starts right after a writer unlock that
left at least one reader registered in the now-current batch, with no
shared holders outstanding and at least one writer queued, and that
takes shared access only through lock_shared (no try_lock_shared
steps) and grants no queued reader, no writer acquisition (neither the
end of lock() nor a successful try_lock()) is possible: a reader of
the queued batch must be granted before the next writer can acquire. -/
theorem shared_mutex_fair_alternation_no_tryshared :
    (∀ s s' : SMFair.SMFState,
        SMFair.SMFLStep s SMFair.SMFLabel.wUnlock s' →
        s'.thisBatch = 1 - s.thisBatch)
  ∧ (∀ (u : SMFair.SMFState) (ls : List SMFair.SMFLabel) (v : SMFair.SMFState),
        u.exclusive = 0 → u.sharedHolders = 0 → 1 ≤ u.etotal →
        1 ≤ SMFair.shAt u u.thisBatch →
        SMFair.shAt u u.thisBatch < SMFair.SIZE_MOD →
        SMFair.SMFPath u ls v →
        (∀ l ∈ ls, l ≠ SMFair.SMFLabel.rGrant ∧ l ≠ SMFair.SMFLabel.tryShared) →
        ∀ w, ¬ SMFair.SMFLStep v SMFair.SMFLabel.wAcq w) := by
  constructor
  · intro s s' h
    cases h
    rfl
  · intro u ls v h1 h2 h3 h4 h5 hp hls w hw
    obtain ⟨hv1, hv2, hv3, hv4⟩ :=
      smf_nogrant_inv hp hls h1 h3 (by omega) h5
    cases hw with
    | wAcq hw2 he hs => omega
    | wTry h => omega

theorem shared_mutex_fair_alternation_no_tryshared_witness :
    ((⟨0, 1, 1, 0, 1, 0, 0, 1, 1⟩ : SMFair.SMFState).exclusive = 0 ∧
     (⟨0, 1, 1, 0, 1, 0, 0, 1, 1⟩ : SMFair.SMFState).sharedHolders = 0 ∧
     1 ≤ (⟨0, 1, 1, 0, 1, 0, 0, 1, 1⟩ : SMFair.SMFState).etotal ∧
     1 ≤ SMFair.shAt ⟨0, 1, 1, 0, 1, 0, 0, 1, 1⟩
        (⟨0, 1, 1, 0, 1, 0, 0, 1, 1⟩ : SMFair.SMFState).thisBatch ∧
     SMFair.shAt ⟨0, 1, 1, 0, 1, 0, 0, 1, 1⟩
        (⟨0, 1, 1, 0, 1, 0, 0, 1, 1⟩ : SMFair.SMFState).thisBatch
       < SMFair.SIZE_MOD) ∧
    (∀ w, ¬ SMFair.SMFLStep ⟨0, 1, 1, 0, 1, 0, 0, 1, 1⟩
        SMFair.SMFLabel.wAcq w) := by
  refine ⟨⟨rfl, rfl, by decide, by decide, by decide⟩, ?_⟩
  exact shared_mutex_fair_alternation_no_tryshared.2
    ⟨0, 1, 1, 0, 1, 0, 0, 1, 1⟩ [] ⟨0, 1, 1, 0, 1, 0, 0, 1, 1⟩
    rfl rfl (by decide) (by decide) (by decide)
    (SMFair.SMFPath.nil _) (by simp)

/-- C9 counterexample: with try_lock_shared in the step relation the
alternation guarantee fails.  A reader takes try_lock_shared (granted,
but unregistered), writer W1 acquires, reader R1 queues into the next
batch, writer W2 queues; W1 unlocks, flipping the batch and leaving R1
registered in the now-current batch (shared[1] = 1); the
try_lock_shared holder then runs unlock_shared, which decrements the
current-batch counter R1 is registered in, down to 0; W2 then
acquires.  Between the two writer acquisitions the queued reader batch
was never granted (the only intervening step is an rRelease, not an
rGrant). -/
theorem shared_mutex_fair_alternation_violated :
    SMFair.SMFReachable ⟨0, 1, 0, 1, 2, 1, 0, 1, 1⟩ ∧
    SMFair.SMFLStep ⟨0, 1, 0, 1, 2, 1, 0, 1, 1⟩ SMFair.SMFLabel.wUnlock
      ⟨0, 1, 1, 0, 1, 1, 0, 1, 1⟩ ∧
    1 ≤ SMFair.shAt ⟨0, 1, 1, 0, 1, 1, 0, 1, 1⟩
      (⟨0, 1, 1, 0, 1, 1, 0, 1, 1⟩ : SMFair.SMFState).thisBatch ∧
    1 ≤ (⟨0, 1, 1, 0, 1, 1, 0, 1, 1⟩ : SMFair.SMFState).waitR1 ∧
    SMFair.SMFPath ⟨0, 1, 1, 0, 1, 1, 0, 1, 1⟩ [SMFair.SMFLabel.rRelease]
      ⟨0, 0, 1, 0, 1, 0, 0, 1, 1⟩ ∧
    SMFair.SMFLStep ⟨0, 0, 1, 0, 1, 0, 0, 1, 1⟩ SMFair.SMFLabel.wAcq
      ⟨0, 0, 1, 1, 1, 0, 0, 1, 0⟩ ∧
    SMFair.SMFLabel.rRelease ≠ SMFair.SMFLabel.rGrant := by
  have e1 : ({ SMFair.SMFState.init with
      sharedHolders := SMFair.SMFState.init.sharedHolders + 1 } : SMFair.SMFState)
      = ⟨0, 0, 0, 0, 0, 1, 0, 0, 0⟩ := by decide
  have r1 : SMFair.SMFReachable ⟨0, 0, 0, 0, 0, 1, 0, 0, 0⟩ :=
    e1 ▸ SMFair.SMFReachable.step SMFair.SMFReachable.init
      (SMFair.SMFLStep.tryShared SMFair.SMFState.init (by decide))
  have e2 : ({ (⟨0, 0, 0, 0, 0, 1, 0, 0, 0⟩ : SMFair.SMFState) with
      etotal := (⟨0, 0, 0, 0, 0, 1, 0, 0, 0⟩ : SMFair.SMFState).etotal + 1,
      waitW := (⟨0, 0, 0, 0, 0, 1, 0, 0, 0⟩ : SMFair.SMFState).waitW + 1 }
      : SMFair.SMFState) = ⟨0, 0, 0, 0, 1, 1, 0, 0, 1⟩ := by decide
  have r2 : SMFair.SMFReachable ⟨0, 0, 0, 0, 1, 1, 0, 0, 1⟩ :=
    e2 ▸ SMFair.SMFReachable.step r1
      (SMFair.SMFLStep.wEnter ⟨0, 0, 0, 0, 0, 1, 0, 0, 0⟩)
  have e3 : ({ (⟨0, 0, 0, 0, 1, 1, 0, 0, 1⟩ : SMFair.SMFState) with
      waitW := (⟨0, 0, 0, 0, 1, 1, 0, 0, 1⟩ : SMFair.SMFState).waitW - 1,
      exclusive := 1 } : SMFair.SMFState) = ⟨0, 0, 0, 1, 1, 1, 0, 0, 0⟩ := by decide
  have r3 : SMFair.SMFReachable ⟨0, 0, 0, 1, 1, 1, 0, 0, 0⟩ :=
    e3 ▸ SMFair.SMFReachable.step r2
      (SMFair.SMFLStep.wAcq ⟨0, 0, 0, 0, 1, 1, 0, 0, 1⟩
        (by decide) (by decide) (by decide))
  have e4 : (if (⟨0, 0, 0, 1, 1, 1, 0, 0, 0⟩ : SMFair.SMFState).thisBatch = 0 then
      { (⟨0, 0, 0, 1, 1, 1, 0, 0, 0⟩ : SMFair.SMFState) with
        sh1 := (⟨0, 0, 0, 1, 1, 1, 0, 0, 0⟩ : SMFair.SMFState).sh1 + 1,
        waitR1 := (⟨0, 0, 0, 1, 1, 1, 0, 0, 0⟩ : SMFair.SMFState).waitR1 + 1 }
    else
      { (⟨0, 0, 0, 1, 1, 1, 0, 0, 0⟩ : SMFair.SMFState) with
        sh0 := (⟨0, 0, 0, 1, 1, 1, 0, 0, 0⟩ : SMFair.SMFState).sh0 + 1,
        waitR0 := (⟨0, 0, 0, 1, 1, 1, 0, 0, 0⟩ : SMFair.SMFState).waitR0 + 1 })
      = (⟨0, 1, 0, 1, 1, 1, 0, 1, 0⟩ : SMFair.SMFState) := by decide
  have r4 : SMFair.SMFReachable ⟨0, 1, 0, 1, 1, 1, 0, 1, 0⟩ :=
    e4 ▸ SMFair.SMFReachable.step r3
      (SMFair.SMFLStep.rQueue ⟨0, 0, 0, 1, 1, 1, 0, 0, 0⟩ (by decide))
  have e5 : ({ (⟨0, 1, 0, 1, 1, 1, 0, 1, 0⟩ : SMFair.SMFState) with
      etotal := (⟨0, 1, 0, 1, 1, 1, 0, 1, 0⟩ : SMFair.SMFState).etotal + 1,
      waitW := (⟨0, 1, 0, 1, 1, 1, 0, 1, 0⟩ : SMFair.SMFState).waitW + 1 }
      : SMFair.SMFState) = ⟨0, 1, 0, 1, 2, 1, 0, 1, 1⟩ := by decide
  have r5 : SMFair.SMFReachable ⟨0, 1, 0, 1, 2, 1, 0, 1, 1⟩ :=
    e5 ▸ SMFair.SMFReachable.step r4
      (SMFair.SMFLStep.wEnter ⟨0, 1, 0, 1, 1, 1, 0, 1, 0⟩)
  have e6 : ({ (⟨0, 1, 0, 1, 2, 1, 0, 1, 1⟩ : SMFair.SMFState) with
      exclusive := 0,
      etotal := SMFair.sizeDec (⟨0, 1, 0, 1, 2, 1, 0, 1, 1⟩ : SMFair.SMFState).etotal,
      thisBatch := 1 - (⟨0, 1, 0, 1, 2, 1, 0, 1, 1⟩ : SMFair.SMFState).thisBatch }
      : SMFair.SMFState) = ⟨0, 1, 1, 0, 1, 1, 0, 1, 1⟩ := by decide
  have st6 : SMFair.SMFLStep ⟨0, 1, 0, 1, 2, 1, 0, 1, 1⟩ SMFair.SMFLabel.wUnlock
      ⟨0, 1, 1, 0, 1, 1, 0, 1, 1⟩ :=
    e6 ▸ SMFair.SMFLStep.wUnlock ⟨0, 1, 0, 1, 2, 1, 0, 1, 1⟩ (by decide)
  have e7 : ({ SMFair.unlock_shared ⟨0, 1, 1, 0, 1, 1, 0, 1, 1⟩ with
      sharedHolders :=
        (⟨0, 1, 1, 0, 1, 1, 0, 1, 1⟩ : SMFair.SMFState).sharedHolders - 1 }
      : SMFair.SMFState) = ⟨0, 0, 1, 0, 1, 0, 0, 1, 1⟩ := by decide
  have st7 : SMFair.SMFLStep ⟨0, 1, 1, 0, 1, 1, 0, 1, 1⟩ SMFair.SMFLabel.rRelease
      ⟨0, 0, 1, 0, 1, 0, 0, 1, 1⟩ :=
    e7 ▸ SMFair.SMFLStep.rRelease ⟨0, 1, 1, 0, 1, 1, 0, 1, 1⟩ (by decide)
  have e8 : ({ (⟨0, 0, 1, 0, 1, 0, 0, 1, 1⟩ : SMFair.SMFState) with
      waitW := (⟨0, 0, 1, 0, 1, 0, 0, 1, 1⟩ : SMFair.SMFState).waitW - 1,
      exclusive := 1 } : SMFair.SMFState) = ⟨0, 0, 1, 1, 1, 0, 0, 1, 0⟩ := by decide
  have st8 : SMFair.SMFLStep ⟨0, 0, 1, 0, 1, 0, 0, 1, 1⟩ SMFair.SMFLabel.wAcq
      ⟨0, 0, 1, 1, 1, 0, 0, 1, 0⟩ :=
    e8 ▸ SMFair.SMFLStep.wAcq ⟨0, 0, 1, 0, 1, 0, 0, 1, 1⟩
      (by decide) (by decide) (by decide)
  exact ⟨r5, st6, by decide, by decide,
    SMFair.SMFPath.cons st7 (SMFair.SMFPath.nil _), st8, by decide⟩

/-- C5: shared_mutex_exclusive::try_lock_until returns true even when
global_.wait_until times out.  From a state where a reader group holds
the global permit (sharedCount 1, no permit available, gate open), a
writer whose timed wait on global_ fails does unwind correctly (its
queued-writer count returns to 0 and, being the last queued writer,
the reader gate is reopened), but the function then falls through to
the unconditional `return true` at the end
(shared_mutex_exclusive.h line 261), telling the caller it acquired
the exclusive lock although the permit was never obtained; the claim
(and the doc comment, true if locked successfully) require false. -/
theorem shared_mutex_exclusive_try_lock_until_true_on_timeout :
    SMExcl.try_lock_until true false ⟨1, 0, true, 0⟩ = (true, ⟨1, 0, true, 0⟩) ∧
    (SMExcl.try_lock_until true false ⟨1, 0, true, 0⟩).2.globalPermits = 0 ∧
    (SMExcl.try_lock_until true false ⟨1, 0, true, 0⟩).2.exclusiveCount = 0 := by
  exact ⟨rfl, rfl, rfl⟩

/-- C6: the predicate form condition_variable::wait_until loops with
an inverted branch (condition_variable.h lines 183-188): when the
predicate stays false and every underlying timed wait reports a
timeout (false), the loop never terminates for any amount of fuel,
instead of returning false once the timeout time is reached; and a
single notification arriving with the predicate still false makes the
call return false immediately, before the timeout. -/
theorem condition_variable_wait_until_pred_diverges :
    (∀ fuel k, CondVar.wait_until_pred (fun _ => false) (fun _ => false) fuel k
        = none) ∧
    (∀ k, CondVar.wait_until_pred (fun _ => false) (fun _ => true) 1 k
        = some false) := by
  constructor
  · intro fuel
    induction fuel with
    | zero => intro k; rfl
    | succ n ih =>
        intro k
        simpa [CondVar.wait_until_pred] using ih (k + 1)
  · intro k
    rfl
